import Mathlib

/-!
Shallow embedding of the nipahblocks repository (server crate
`nipahblocks_server/src/main.rs` and API crate
`nipahblocks_api/src/{lib,chunk}.rs`), together with proofs settling the
specification claims.

Modelling conventions:
* machine integers are `Nat`/`Int` (u8/u16/usize as `Nat`, i16 as `Int`);
* `f32`/`f64` arithmetic appearing in chunk generation is modelled over `ℚ`
  (the noise function is opaque, and every claim about generation only
  constrains the noise output range, so float rounding of the sampling
  coordinates is immaterial);
* the Tokio mpsc channel of a player is modelled as the list of messages
  delivered to it (`queue`); a closed channel / panic outcome is modelled
  with `Option` (`none` = the Rust code panics there);
* `HashMap` is modelled as an association list (iteration order is
  unspecified in Rust; no claim depends on cross-player order).
-/

/-! ### Chunk generation (`nipahblocks_api/src/chunk.rs`) -/

/-- Rust `ChunkId { x: i16, y: i16 }` (chunk.rs). -/
structure ChunkId where
  x : Int
  y : Int
deriving DecidableEq

/-- Rust `Position { x: f32, y: f32, z: f32 }` (lib.rs), numeric view over ℚ. -/
structure Position where
  x : ℚ
  y : ℚ
  z : ℚ
deriving DecidableEq

instance : Inhabited Position := ⟨⟨0, 0, 0⟩⟩

/-- Rust `Block(BlockId)` with `BlockId = u8` (chunk.rs). -/
structure Block where
  val : ℕ
deriving DecidableEq

/-- Rust `Chunk { id: ChunkId, blocks: Vec<Option<Block>> }` (chunk.rs). -/
structure Chunk where
  id : ChunkId
  blocks : List (Option Block)
deriving DecidableEq

/-- `Chunk::WIDTH` (chunk.rs line 47). -/
def Chunk.WIDTH : ℕ := 16

/-- `Chunk::HALF_WIDTH = WIDTH / 2` (chunk.rs line 48). -/
def Chunk.HALF_WIDTH : ℕ := Chunk.WIDTH / 2

/-- `Chunk::HEIGHT` (chunk.rs line 49). -/
def Chunk.HEIGHT : ℕ := 256

/-- `Chunk::SIZE = WIDTH.pow(2) * HEIGHT` (chunk.rs line 50). -/
def Chunk.SIZE : ℕ := Chunk.WIDTH ^ 2 * Chunk.HEIGHT

/-- `Chunk::get_block_index` (chunk.rs lines 52-57):
`z * WIDTH.pow(2) + y * WIDTH + x`. -/
def Chunk.get_block_index (x y z : ℕ) : ℕ :=
  z * Chunk.WIDTH ^ 2 + y * Chunk.WIDTH + x

/-- `ChunkId::starting_position` (chunk.rs lines 13-21). -/
def ChunkId.starting_position (c : ChunkId) : Position :=
  { x := (c.x : ℚ) * (Chunk.WIDTH : ℚ) - (Chunk.HALF_WIDTH : ℚ)
    y := (c.y : ℚ) * (Chunk.WIDTH : ℚ) - (Chunk.HALF_WIDTH : ℚ)
    z := 0 }

/-- Rust `f32::round` (round half away from zero), over ℚ. -/
def rustRound (q : ℚ) : ℤ :=
  if 0 ≤ q then ⌊q + 1 / 2⌋ else ⌈q - 1 / 2⌉

/-- `MIN_TERRAIN_HEIGHT` (chunk.rs line 61). -/
def MIN_TERRAIN_HEIGHT : ℕ := 64

/-- `MAX_TERRAIN_HEIGHT` (chunk.rs line 62). -/
def MAX_TERRAIN_HEIGHT : ℕ := 128

/-- `MAX_TERRAIN_AMPLITUDE = (MAX_TERRAIN_HEIGHT - MIN_TERRAIN_HEIGHT) as f32`
(chunk.rs line 63). -/
def MAX_TERRAIN_AMPLITUDE : ℚ := ((MAX_TERRAIN_HEIGHT - MIN_TERRAIN_HEIGHT : ℕ) : ℚ)

/-- `NOISE_FREQUENCY` (chunk.rs line 64). -/
def NOISE_FREQUENCY : ℚ := 1 / 100

/-- Column height computed by the body of the inner closure of `Chunk::new`
(chunk.rs lines 71-79): sample the noise at the scaled global column
coordinate, remap from [-1,1] to [0,1], and map into the terrain range.
The cast `as usize` of the rounded value truncates (negative values clamp
to 0, which `Int.toNat` mirrors). The opaque noise function is a parameter. -/
def columnHeight (noise : ℚ → ℚ → ℚ) (cid : ChunkId) (x y : ℕ) : ℕ :=
  let start := cid.starting_position
  let global_x : ℚ := start.x + (x : ℚ)
  let global_y : ℚ := start.y + (y : ℚ)
  let noise_value := noise (global_x * NOISE_FREQUENCY) (global_y * NOISE_FREQUENCY)
  let noise_value := (noise_value + 1) / 2
  MIN_TERRAIN_HEIGHT + (rustRound (noise_value * MAX_TERRAIN_AMPLITUDE)).toNat

/-- The `(0..WIDTH).flat_map(|x| (0..WIDTH).map(move |y| (x, y)))` iterator of
`Chunk::new` (chunk.rs lines 68-69). -/
def chunkColumns : List (ℕ × ℕ) :=
  (List.range Chunk.WIDTH).flatMap fun x =>
    (List.range Chunk.WIDTH).map fun y => (x, y)

/-- The full `(x, y, z, depth)` iterator of `Chunk::new` (chunk.rs lines
68-81): for each column, `(0..height).map(move |z| (x, y, z, height - z))`. -/
def chunkWrites (noise : ℚ → ℚ → ℚ) (cid : ChunkId) : List (ℕ × ℕ × ℕ × ℕ) :=
  chunkColumns.flatMap fun p =>
    (List.range (columnHeight noise cid p.1 p.2)).map fun z =>
      (p.1, p.2, z, columnHeight noise cid p.1 p.2 - z)

/-- The `match depth` on chunk.rs lines 84-88:
`0 => Block(3), 1..=3 => Block(2), _ => Block(1)`. -/
def blockForDepth (depth : ℕ) : Block :=
  match depth with
  | 0 => ⟨3⟩
  | 1 => ⟨2⟩
  | 2 => ⟨2⟩
  | 3 => ⟨2⟩
  | _ => ⟨1⟩

/-- `Chunk::new` (chunk.rs lines 59-94): start from `vec![None; SIZE]` and
perform every indexed write of the loop body in iteration order. -/
def Chunk.new (noise : ℚ → ℚ → ℚ) (chunk_id : ChunkId) : Chunk :=
  { id := chunk_id
    blocks :=
      (chunkWrites noise chunk_id).foldl
        (fun blocks w =>
          blocks.set (Chunk.get_block_index w.1 w.2.1 w.2.2.1)
            (some (blockForDepth w.2.2.2)))
        (List.replicate Chunk.SIZE none) }

/-! ### Server state (`nipahblocks_server/src/main.rs`) -/

/-- `HISTORY_SIZE` (main.rs line 24). -/
def HISTORY_SIZE : ℕ := 50

/-- `PLAYER_CH_SIZE` (main.rs line 25). -/
def PLAYER_CH_SIZE : ℕ := 100

/-- Rust `ChatMessage { user_id: PlayerId, content: String, time: DateTime<Utc> }`
(lib.rs lines 66-71). `PlayerId = u16` is a `Nat`; the timestamp instant is an
abstract `Nat` (its value is supplied by the caller, modelling `Utc::now()`). -/
structure ChatMessage where
  user_id : ℕ
  content : String
  time : ℕ
deriving DecidableEq

/-- Rust `ServerMessage` (lib.rs lines 88-96); the `Chunk` payload is the
`chunk.rs` chunk the server actually sends (main.rs line 74-76). -/
inductive ServerMessage where
  | ChatMessage (m : ChatMessage)
  | Players (l : List ℕ)
  | PlayerConnected (id : ℕ)
  | PlayerDisconnected (id : ℕ)
  | PlayerMoved (id : ℕ) (pos : Position)
  | Chunk (c : Chunk)
deriving DecidableEq

/-- Rust `PlayerState { id, position, tx }` (main.rs lines 28-32). The mpsc
sender `tx` is modelled by `queue`, the list of messages delivered to this
player's channel so far. -/
structure PlayerState where
  id : ℕ
  position : Position
  queue : List ServerMessage
deriving DecidableEq

/-- Rust `State` (main.rs lines 79-84). The `players` HashMap is an ordered
association list (HashMap iteration order is unspecified; no claim depends on
it); `chunks` likewise. `gens` is ghost instrumentation with no Rust
counterpart: it counts how many times the expression `Chunk::new(&self.noise,
chunk_id)` has been evaluated, so that claims about how often the generator
runs are statable. -/
structure State where
  history : List ChatMessage
  players : List PlayerState
  chunks : List (ChunkId × Chunk)
  gens : ℕ
deriving DecidableEq

/-- Identifiers of the currently registered players (the HashMap key set). -/
def State.ids (st : State) : List ℕ := st.players.map PlayerState.id

/-- Contents of the outbound channel of player `pid`, when registered
(first matching registry entry). -/
def State.queueOf (st : State) (pid : ℕ) : Option (List ServerMessage) :=
  (st.players.find? (fun p => p.id = pid)).map PlayerState.queue

/-- Delivery of one message to one player's channel, used by every unicast
path `self.players...[&player_id].send_...` once the entry exists. -/
def pushTo (players : List PlayerState) (pid : ℕ) (msg : ServerMessage) :
    List PlayerState :=
  players.map fun p => if p.id = pid then { p with queue := p.queue ++ [msg] } else p

/-- Delivery of one message to every registered player's channel, the
`for player in self.players.read().await.values()` broadcast pattern. -/
def pushAll (players : List PlayerState) (msg : ServerMessage) : List PlayerState :=
  players.map fun p => { p with queue := p.queue ++ [msg] }

/-- `State::send_player_connected` (main.rs lines 103-107). -/
def State.send_player_connected (st : State) (player_id : ℕ) : State :=
  { st with players := pushAll st.players (ServerMessage.PlayerConnected player_id) }

/-- `State::send_player_disconnected` (main.rs lines 109-113). -/
def State.send_player_disconnected (st : State) (player_id : ℕ) : State :=
  { st with players := pushAll st.players (ServerMessage.PlayerDisconnected player_id) }

/-- `State::send_history` (main.rs lines 96-101): clone the history, then
`self.players.read().await[&player_id]` — indexing a missing key panics, which
`none` models — and send every stored message in order (oldest first). -/
def State.send_history (st : State) (player_id : ℕ) : Option State :=
  match st.players.find? (fun p => p.id = player_id) with
  | none => none
  | some _ =>
      some { st with
              players :=
                st.history.foldl
                  (fun ps m => pushTo ps player_id (ServerMessage.ChatMessage m))
                  st.players }

/-- The history update inside `State::send_chat_message` (main.rs lines
121-127): `if history.len() == HISTORY_SIZE { history.pop_front(); }
history.push_back(message)`. -/
def historyAppend (history : List ChatMessage) (message : ChatMessage) :
    List ChatMessage :=
  (if history.length = HISTORY_SIZE then history.drop 1 else history) ++ [message]

/-- `State::send_chat_message` (main.rs lines 115-131). The `time` argument
models `Utc::now()`. -/
def State.send_chat_message (st : State) (player_id : ℕ) (content : String)
    (time : ℕ) : State :=
  let message : ChatMessage := { user_id := player_id, content := content, time := time }
  { st with
      history := historyAppend st.history message
      players := pushAll st.players (ServerMessage.ChatMessage message) }

/-- `State::update_player_position` (main.rs lines 133-142):
`players.entry(player_id).and_modify(|player| player.position = position)`
mutates the entry when present and does nothing otherwise (no insertion, no
error), then the `PlayerMoved` event is broadcast to every registered player. -/
def State.update_player_position (st : State) (player_id : ℕ) (position : Position) :
    State :=
  let players :=
    st.players.map fun p =>
      if p.id = player_id then { p with position := position } else p
  { st with players := pushAll players (ServerMessage.PlayerMoved player_id position) }

/-- `State::send_player_list` (main.rs lines 144-148): collect every registered
id, then `players[&player_id]` — a panic (`none`) when the requester is not
registered — and send the list to the requester. -/
def State.send_player_list (st : State) (player_id : ℕ) : Option State :=
  let player_list := st.players.map PlayerState.id
  match st.players.find? (fun p => p.id = player_id) with
  | none => none
  | some _ =>
      some { st with
              players := pushTo st.players player_id (ServerMessage.Players player_list) }

/-- `State::send_chunk` (main.rs lines 150-161). Rust evaluates the argument of
`Entry::or_insert` before the entry is examined, so
`Chunk::new(&self.noise, chunk_id)` is executed unconditionally on every call
(counted by the ghost field `gens`); the freshly generated chunk is inserted
only when the id was absent and is discarded on a cache hit. The cached (or
just inserted) chunk is cloned and sent to the requesting player;
`players[&player_id]` panics (`none`) when the requester is not registered. -/
def State.send_chunk (noise : ℚ → ℚ → ℚ) (st : State) (player_id : ℕ)
    (chunk_id : ChunkId) : Option State :=
  let generated := Chunk.new noise chunk_id
  let gens := st.gens + 1
  let lookup := st.chunks.find? (fun e => e.1 = chunk_id)
  let chunk := match lookup with
    | some e => e.2
    | none => generated
  let chunks := match lookup with
    | some _ => st.chunks
    | none => st.chunks ++ [(chunk_id, generated)]
  match st.players.find? (fun p => p.id = player_id) with
  | none => none
  | some _ =>
      some { st with
              gens := gens
              chunks := chunks
              players := pushTo st.players player_id (ServerMessage.Chunk chunk) }

/-- The join sequence at the top of `accept_connection` (main.rs lines
207-218): insert a fresh `PlayerState` with the default position (HashMap
insert replaces an existing entry with the same key), then
`send_player_connected` (broadcast), then `send_history` (unicast to the
joining player). -/
def State.player_joined (st : State) (user_id : ℕ) : Option State :=
  let entry : PlayerState := { id := user_id, position := default, queue := [] }
  let players :=
    if st.players.any (fun p => p.id = user_id) then
      st.players.map fun p => if p.id = user_id then entry else p
    else
      st.players ++ [entry]
  let st := { st with players := players }
  let st := st.send_player_connected user_id
  st.send_history user_id

/-- The leave sequence at the bottom of `accept_connection` (main.rs lines
240-241): remove the registry entry, then broadcast `PlayerDisconnected` to
the remaining players. -/
def State.player_left (st : State) (user_id : ℕ) : State :=
  let st := { st with players := st.players.filter (fun p => ¬ p.id = user_id) }
  st.send_player_disconnected user_id

/-- Iterated `send_chat_message` over a list of `(player_id, content, time)`
operations, for the ordering part of the chat contract. -/
def State.run_chats (st : State) (ops : List (ℕ × String × ℕ)) : State :=
  ops.foldl (fun s o => s.send_chat_message o.1 o.2.1 o.2.2) st

/-- The ChatMessage built by `send_chat_message` from one operation. -/
def chatOf (o : ℕ × String × ℕ) : ChatMessage :=
  { user_id := o.1, content := o.2.1, time := o.2.2 }

/-- Model of one outbound channel for `PlayerState::send_server_message`
(main.rs lines 35-41) in isolation: `closed` is true once the receiving half
has been dropped (the player disconnected). -/
structure Channel where
  closed : Bool
  queue : List ServerMessage
deriving DecidableEq

/-- `PlayerState::send_server_message` (main.rs lines 35-41):
`self.tx.send(msg).await` returns an error iff the channel is closed; the
error is logged by `inspect_err` and then `.unwrap()` panics on it (`none`).
On an open channel the message is enqueued. -/
def Channel.send_server_message (ch : Channel) (msg : ServerMessage) :
    Option Channel :=
  match ch.closed with
  | true => none
  | false => some { ch with queue := ch.queue ++ [msg] }

/-! ### Wire format (`nipahblocks_api/src/lib.rs`, bincode standard config)

Byte-level view of the `TryFrom` conversions between protocol messages and
`tungstenite::Message` (lib.rs lines 98-142). `bincode::config::standard()`
is little-endian with variable-width integer encoding: an unsigned integer
below 251 is one byte, otherwise a marker byte 251/252/253 followed by the
little-endian u16/u32/u64; signed integers are zigzag-mapped to unsigned
first; `u8` is one raw byte; `f32` is its 4 bit-pattern bytes (modelled as
the bit pattern, a `Nat`); collection lengths are usize encoded as u64;
serde enum variant indexes are u32; a `String` is its length followed by its
UTF-8 bytes (modelled as the byte list). `chrono::DateTime<Utc>` serializes
through serde as its RFC 3339 text and deserializes from it exactly, so the
timestamp is modelled as that opaque byte string. -/

namespace Wire

/-- Variable-width encoding of an unsigned integer (bincode varint). -/
def encodeVarint (n : ℕ) : List ℕ :=
  if n < 251 then [n]
  else if n < 2 ^ 16 then [251, n % 256, n / 256]
  else if n < 2 ^ 32 then
    [252, n % 256, n / 2 ^ 8 % 256, n / 2 ^ 16 % 256, n / 2 ^ 24]
  else
    [253, n % 256, n / 2 ^ 8 % 256, n / 2 ^ 16 % 256, n / 2 ^ 24 % 256,
      n / 2 ^ 32 % 256, n / 2 ^ 40 % 256, n / 2 ^ 48 % 256, n / 2 ^ 56]

/-- Decoder for `encodeVarint`, returning the value and the remaining bytes. -/
def decodeVarint : List ℕ → Option (ℕ × List ℕ)
  | [] => none
  | b :: rest =>
    if b < 251 then some (b, rest)
    else if b = 251 then
      match rest with
      | b0 :: b1 :: r => some (b0 + 2 ^ 8 * b1, r)
      | _ => none
    else if b = 252 then
      match rest with
      | b0 :: b1 :: b2 :: b3 :: r =>
          some (b0 + 2 ^ 8 * b1 + 2 ^ 16 * b2 + 2 ^ 24 * b3, r)
      | _ => none
    else if b = 253 then
      match rest with
      | b0 :: b1 :: b2 :: b3 :: b4 :: b5 :: b6 :: b7 :: r =>
          some (b0 + 2 ^ 8 * b1 + 2 ^ 16 * b2 + 2 ^ 24 * b3 + 2 ^ 32 * b4 +
            2 ^ 40 * b5 + 2 ^ 48 * b6 + 2 ^ 56 * b7, r)
      | _ => none
    else none

/-- Zigzag map from signed to unsigned used by bincode for signed integers. -/
def zigzag (v : ℤ) : ℕ :=
  if 0 ≤ v then (2 * v).toNat else (-(2 * v) - 1).toNat

/-- Inverse of `zigzag`. -/
def unzigzag (u : ℕ) : ℤ :=
  if u % 2 = 0 then ((u / 2 : ℕ) : ℤ) else -(((u + 1) / 2 : ℕ) : ℤ)

/-- Encoding of an `i16` field (zigzag, then varint). -/
def encodeI16 (v : ℤ) : List ℕ := encodeVarint (zigzag v)

/-- Decoder for `encodeI16`. -/
def decodeI16 (bs : List ℕ) : Option (ℤ × List ℕ) :=
  (decodeVarint bs).map fun r => (unzigzag r.1, r.2)

/-- Encoding of an `f32` field: the 4 little-endian bytes of its bit
pattern `n`. -/
def encodeF32 (n : ℕ) : List ℕ :=
  [n % 256, n / 2 ^ 8 % 256, n / 2 ^ 16 % 256, n / 2 ^ 24]

/-- Decoder for `encodeF32`. -/
def decodeF32 : List ℕ → Option (ℕ × List ℕ)
  | b0 :: b1 :: b2 :: b3 :: r =>
      some (b0 + 2 ^ 8 * b1 + 2 ^ 16 * b2 + 2 ^ 24 * b3, r)
  | _ => none

/-- Encoding of a `u8` field: one byte. -/
def encodeU8 (n : ℕ) : List ℕ := [n]

/-- Decoder for `encodeU8`. -/
def decodeU8 : List ℕ → Option (ℕ × List ℕ)
  | b :: r => some (b, r)
  | [] => none

/-- Encoding of a string/byte-string: length, then the bytes. -/
def encodeStr (s : List ℕ) : List ℕ := encodeVarint s.length ++ s

/-- Decoder for `encodeStr`. -/
def decodeStr (bs : List ℕ) : Option (List ℕ × List ℕ) :=
  match decodeVarint bs with
  | none => none
  | some (len, r) => if len ≤ r.length then some (r.take len, r.drop len) else none

/-- Encoding of a `Vec<T>`: length, then each element in order. -/
def encodeList (enc : α → List ℕ) (l : List α) : List ℕ :=
  encodeVarint l.length ++ (l.map enc).flatten

/-- Element-count-indexed decoder for `encodeList` payloads. -/
def decodeCount (dec : List ℕ → Option (α × List ℕ)) :
    ℕ → List ℕ → Option (List α × List ℕ)
  | 0, bs => some ([], bs)
  | n + 1, bs =>
    match dec bs with
    | none => none
    | some (a, r) =>
      match decodeCount dec n r with
      | none => none
      | some (l, r') => some (a :: l, r')

/-- Decoder for `encodeList`. -/
def decodeList (dec : List ℕ → Option (α × List ℕ)) (bs : List ℕ) :
    Option (List α × List ℕ) :=
  match decodeVarint bs with
  | none => none
  | some (len, r) => decodeCount dec len r

/-- Encoding of an `Option<T>` (serde: tag byte 0 = None, 1 = Some). -/
def encodeOpt (enc : α → List ℕ) : Option α → List ℕ
  | none => [0]
  | some a => 1 :: enc a

/-- Decoder for `encodeOpt`. -/
def decodeOpt (dec : List ℕ → Option (α × List ℕ)) :
    List ℕ → Option (Option α × List ℕ)
  | 0 :: r => some (none, r)
  | 1 :: r =>
    match dec r with
    | none => none
    | some (a, r') => some (some a, r')
  | _ => none

/-- Wire view of `Position` (lib.rs lines 24-29): three f32 bit patterns. -/
structure Position where
  x : ℕ
  y : ℕ
  z : ℕ
deriving DecidableEq

/-- Wire view of `ChunkId` (chunk.rs lines 6-10): two i16 values. -/
structure ChunkId where
  x : ℤ
  y : ℤ
deriving DecidableEq

/-- Wire view of `Block` (chunk.rs lines 37-38): a newtype over u8. -/
structure Block where
  val : ℕ
deriving DecidableEq

/-- Wire view of `Chunk` (chunk.rs lines 40-44). -/
structure Chunk where
  id : ChunkId
  blocks : List (Option Block)
deriving DecidableEq

/-- Wire view of `ChatMessage` (lib.rs lines 66-71): the timestamp is the
RFC 3339 byte string chrono writes through serde. -/
structure ChatMessage where
  user_id : ℕ
  content : List ℕ
  time : List ℕ
deriving DecidableEq

/-- Wire view of `PlayerMessage` (lib.rs lines 56-62). -/
inductive PlayerMessage where
  | Message (content : List ℕ)
  | UpdatePosition (pos : Position)
  | FetchChunk (id : ChunkId)
  | FetchPlayers
deriving DecidableEq

/-- Wire view of `ServerMessage` (lib.rs lines 88-96), carrying the chunk.rs
`Chunk` that the server sends. -/
inductive ServerMessage where
  | ChatMessage (m : ChatMessage)
  | Players (l : List ℕ)
  | PlayerConnected (id : ℕ)
  | PlayerDisconnected (id : ℕ)
  | PlayerMoved (id : ℕ) (pos : Position)
  | Chunk (c : Chunk)
deriving DecidableEq

/-- Serde struct encoding of `Position`: fields in declaration order. -/
def encodePosition (p : Position) : List ℕ :=
  encodeF32 p.x ++ encodeF32 p.y ++ encodeF32 p.z

/-- Decoder for `encodePosition`. -/
def decodePosition (bs : List ℕ) : Option (Position × List ℕ) :=
  match decodeF32 bs with
  | none => none
  | some (x, r1) =>
    match decodeF32 r1 with
    | none => none
    | some (y, r2) =>
      match decodeF32 r2 with
      | none => none
      | some (z, r3) => some (⟨x, y, z⟩, r3)

/-- Serde struct encoding of `ChunkId`. -/
def encodeChunkId (c : ChunkId) : List ℕ := encodeI16 c.x ++ encodeI16 c.y

/-- Decoder for `encodeChunkId`. -/
def decodeChunkId (bs : List ℕ) : Option (ChunkId × List ℕ) :=
  match decodeI16 bs with
  | none => none
  | some (x, r1) =>
    match decodeI16 r1 with
    | none => none
    | some (y, r2) => some (⟨x, y⟩, r2)

/-- Serde newtype encoding of `Block`: just the inner u8. -/
def encodeBlock (b : Block) : List ℕ := encodeU8 b.val

/-- Decoder for `encodeBlock`. -/
def decodeBlock (bs : List ℕ) : Option (Block × List ℕ) :=
  (decodeU8 bs).map fun r => (⟨r.1⟩, r.2)

/-- Serde struct encoding of `Chunk`: id, then the block vector. -/
def encodeChunk (c : Chunk) : List ℕ :=
  encodeChunkId c.id ++ encodeList (encodeOpt encodeBlock) c.blocks

/-- Decoder for `encodeChunk`. -/
def decodeChunk (bs : List ℕ) : Option (Chunk × List ℕ) :=
  match decodeChunkId bs with
  | none => none
  | some (id, r1) =>
    match decodeList (decodeOpt decodeBlock) r1 with
    | none => none
    | some (blocks, r2) => some (⟨id, blocks⟩, r2)

/-- Serde struct encoding of `ChatMessage`: user_id, content, time. -/
def encodeChatMessage (m : ChatMessage) : List ℕ :=
  encodeVarint m.user_id ++ encodeStr m.content ++ encodeStr m.time

/-- Decoder for `encodeChatMessage`. -/
def decodeChatMessage (bs : List ℕ) : Option (ChatMessage × List ℕ) :=
  match decodeVarint bs with
  | none => none
  | some (uid, r1) =>
    match decodeStr r1 with
    | none => none
    | some (content, r2) =>
      match decodeStr r2 with
      | none => none
      | some (time, r3) => some (⟨uid, content, time⟩, r3)

/-- Serde enum encoding of `PlayerMessage`: u32 variant index, then payload. -/
def encodePlayerMessage : PlayerMessage → List ℕ
  | .Message content => encodeVarint 0 ++ encodeStr content
  | .UpdatePosition pos => encodeVarint 1 ++ encodePosition pos
  | .FetchChunk id => encodeVarint 2 ++ encodeChunkId id
  | .FetchPlayers => encodeVarint 3

/-- Decoder for `encodePlayerMessage`. -/
def decodePlayerMessage (bs : List ℕ) : Option (PlayerMessage × List ℕ) :=
  match decodeVarint bs with
  | none => none
  | some (0, r) => (decodeStr r).map fun s => (.Message s.1, s.2)
  | some (1, r) => (decodePosition r).map fun s => (.UpdatePosition s.1, s.2)
  | some (2, r) => (decodeChunkId r).map fun s => (.FetchChunk s.1, s.2)
  | some (3, r) => some (.FetchPlayers, r)
  | some _ => none

/-- Serde enum encoding of `ServerMessage`: u32 variant index, then payload. -/
def encodeServerMessage : ServerMessage → List ℕ
  | .ChatMessage m => encodeVarint 0 ++ encodeChatMessage m
  | .Players l => encodeVarint 1 ++ encodeList encodeVarint l
  | .PlayerConnected id => encodeVarint 2 ++ encodeVarint id
  | .PlayerDisconnected id => encodeVarint 3 ++ encodeVarint id
  | .PlayerMoved id pos => encodeVarint 4 ++ encodeVarint id ++ encodePosition pos
  | .Chunk c => encodeVarint 5 ++ encodeChunk c

/-- Decoder for `encodeServerMessage`. -/
def decodeServerMessage (bs : List ℕ) : Option (ServerMessage × List ℕ) :=
  match decodeVarint bs with
  | none => none
  | some (0, r) => (decodeChatMessage r).map fun s => (.ChatMessage s.1, s.2)
  | some (1, r) => (decodeList decodeVarint r).map fun s => (.Players s.1, s.2)
  | some (2, r) => (decodeVarint r).map fun s => (.PlayerConnected s.1, s.2)
  | some (3, r) => (decodeVarint r).map fun s => (.PlayerDisconnected s.1, s.2)
  | some (4, r) =>
    match decodeVarint r with
    | none => none
    | some (id, r1) => (decodePosition r1).map fun s => (.PlayerMoved id s.1, s.2)
  | some (5, r) => (decodeChunk r).map fun s => (.Chunk s.1, s.2)
  | some _ => none

/-- The `tungstenite::Message` side of the conversions: the impls only
distinguish `Binary` payloads from every other shape. -/
inductive WsMessage where
  | binary (data : List ℕ)
  | otherShape
deriving DecidableEq

/-- `TryFrom<ServerMessage> for tungstenite::Message` (lib.rs lines 98-105):
`bincode::serde::encode_to_vec` cannot fail on these types, so the conversion
always yields a `Binary` message. -/
def serverMessageToWs (m : ServerMessage) : WsMessage :=
  .binary (encodeServerMessage m)

/-- `TryFrom<PlayerMessage> for tungstenite::Message` (lib.rs lines 107-114). -/
def playerMessageToWs (m : PlayerMessage) : WsMessage :=
  .binary (encodePlayerMessage m)

/-- `TryFrom<tungstenite::Message> for ServerMessage` (lib.rs lines 116-128):
non-binary frames are rejected (`NotBinary`); binary frames are decoded with
`decode_from_slice`, which returns the value and ignores the consumed-length
component (trailing bytes are allowed). `none` collects both error paths. -/
def wsToServerMessage : WsMessage → Option ServerMessage
  | .binary data => (decodeServerMessage data).map fun s => s.1
  | .otherShape => none

/-- `TryFrom<tungstenite::Message> for PlayerMessage` (lib.rs lines 130-142). -/
def wsToPlayerMessage : WsMessage → Option PlayerMessage
  | .binary data => (decodePlayerMessage data).map fun s => s.1
  | .otherShape => none

/-- Type-faithfulness bounds on the wire view: u16 fields fit in 16 bits, i16
fields in the signed 16-bit range, f32 bit patterns in 32 bits, u8 in 8 bits,
and every collection/string length fits in usize (u64). -/
def wfPosition (p : Position) : Prop :=
  p.x < 2 ^ 32 ∧ p.y < 2 ^ 32 ∧ p.z < 2 ^ 32

/-- Bounds for a wire `ChunkId`. -/
def wfChunkId (c : ChunkId) : Prop :=
  -2 ^ 15 ≤ c.x ∧ c.x < 2 ^ 15 ∧ -2 ^ 15 ≤ c.y ∧ c.y < 2 ^ 15

/-- Bounds for a wire `Chunk`. -/
def wfChunk (c : Chunk) : Prop :=
  wfChunkId c.id ∧ c.blocks.length < 2 ^ 64 ∧
    ∀ b ∈ c.blocks, ∀ v, b = some v → v.val < 2 ^ 8

/-- Bounds for a wire `ChatMessage`. -/
def wfChatMessage (m : ChatMessage) : Prop :=
  m.user_id < 2 ^ 16 ∧ m.content.length < 2 ^ 64 ∧ m.time.length < 2 ^ 64

/-- Bounds for a wire `PlayerMessage`. -/
def wfPlayerMessage : PlayerMessage → Prop
  | .Message content => content.length < 2 ^ 64
  | .UpdatePosition pos => wfPosition pos
  | .FetchChunk id => wfChunkId id
  | .FetchPlayers => True

/-- Bounds for a wire `ServerMessage`. -/
def wfServerMessage : ServerMessage → Prop
  | .ChatMessage m => wfChatMessage m
  | .Players l => l.length < 2 ^ 64 ∧ ∀ i ∈ l, i < 2 ^ 16
  | .PlayerConnected id => id < 2 ^ 16
  | .PlayerDisconnected id => id < 2 ^ 16
  | .PlayerMoved id pos => id < 2 ^ 16 ∧ wfPosition pos
  | .Chunk c => wfChunk c

end Wire

/-! ### Concrete sample inputs used to instantiate the theorems -/

/-- A server state with no history, no players, no cached chunks. -/
def emptyState : State := { history := [], players := [], chunks := [], gens := 0 }

/-- A server state with two registered players (ids 7 and 9), empty channels. -/
def twoPlayerState : State :=
  { history := []
    players := [{ id := 7, position := default, queue := [] },
                { id := 9, position := default, queue := [] }]
    chunks := []
    gens := 0 }

/-- A constant noise function, trivially within [-1, 1]. -/
def zeroNoise : ℚ → ℚ → ℚ := fun _ _ => 0

/-- Fifty-one distinct chat operations. -/
def sampleOps : List (ℕ × String × ℕ) :=
  (List.range (HISTORY_SIZE + 1)).map fun i => (i, "", 0)

/-- A sample wire server message with the largest `PlayerId`. -/
def sampleWireServerMessage : Wire.ServerMessage :=
  Wire.ServerMessage.PlayerMoved 65535 ⟨1, 2, 3⟩

/-- A sample wire player message with nonempty content bytes. -/
def sampleWirePlayerMessage : Wire.PlayerMessage :=
  Wire.PlayerMessage.Message [104, 105]

/-! ### Helper lemmas: indexed writes of `Chunk::new` -/

theorem foldl_set_length {α : Type} (ws : List (ℕ × α)) (init : List α) :
    (ws.foldl (fun l w => l.set w.1 w.2) init).length = init.length := by
  induction ws generalizing init with
  | nil => rfl
  | cons w ws ih => rw [List.foldl_cons, ih, List.length_set]

theorem foldl_set_getElem?_not_mem {α : Type} {ws : List (ℕ × α)} {init : List α}
    {j : ℕ} (h : ∀ w ∈ ws, w.1 ≠ j) :
    (ws.foldl (fun l w => l.set w.1 w.2) init)[j]? = init[j]? := by
  induction ws generalizing init with
  | nil => rfl
  | cons w ws ih =>
    rw [List.foldl_cons, ih (fun w hw => h w (List.mem_cons_of_mem _ hw))]
    exact List.getElem?_set_ne (h w (List.mem_cons_self w ws))

theorem foldl_set_getElem?_mem {α : Type} {ws : List (ℕ × α)} {init : List α}
    {j : ℕ} {v : α} (hnd : (ws.map Prod.fst).Nodup) (hmem : (j, v) ∈ ws)
    (hj : j < init.length) :
    (ws.foldl (fun l w => l.set w.1 w.2) init)[j]? = some v := by
  induction ws generalizing init with
  | nil => cases hmem
  | cons w ws ih =>
    rw [List.map_cons, List.nodup_cons] at hnd
    rw [List.foldl_cons]
    rcases List.mem_cons.mp hmem with heq | hmem'
    · subst heq
      rw [foldl_set_getElem?_not_mem]
      · exact List.getElem?_set_self hj
      · intro w' hw' he
        have hm : w'.1 ∈ ws.map Prod.fst := List.mem_map.mpr ⟨w', hw', rfl⟩
        exact hnd.1 (he ▸ hm)
    · exact ih hnd.2 hmem' (by rw [List.length_set]; exact hj)

theorem mem_chunkColumns {p : ℕ × ℕ} :
    p ∈ chunkColumns ↔ p.1 < 16 ∧ p.2 < 16 := by
  cases p with
  | mk a b =>
    simp only [chunkColumns, Chunk.WIDTH, List.mem_flatMap, List.mem_map,
      List.mem_range, Prod.mk.injEq]
    constructor
    · rintro ⟨x, hx, y, hy, rfl, rfl⟩
      exact ⟨hx, hy⟩
    · rintro ⟨ha, hb⟩
      exact ⟨a, ha, b, hb, rfl, rfl⟩

theorem nodup_chunkColumns : chunkColumns.Nodup := by
  rw [chunkColumns, List.nodup_flatMap]
  constructor
  · intro x _
    exact (List.nodup_range _).map (fun y y' h => (Prod.mk.injEq _ _ _ _ ▸ h).2)
  · refine (List.pairwise_lt_range _).imp ?_
    intro a b hab q hqa hqb
    rcases List.mem_map.mp hqa with ⟨y, _, rfl⟩
    rcases List.mem_map.mp hqb with ⟨y', _, hq⟩
    exact absurd ((Prod.mk.injEq _ _ _ _ ▸ hq).1) (Nat.ne_of_gt hab)

theorem get_block_index_inj {a b c x y z : ℕ} (ha : a < 16) (hb : b < 16)
    (hx : x < 16) (hy : y < 16)
    (h : Chunk.get_block_index a b c = Chunk.get_block_index x y z) :
    a = x ∧ b = y ∧ c = z := by
  simp only [Chunk.get_block_index, Chunk.WIDTH] at h
  norm_num at h
  omega

theorem mem_chunkWrites {noise : ℚ → ℚ → ℚ} {cid : ChunkId}
    {w : ℕ × ℕ × ℕ × ℕ} :
    w ∈ chunkWrites noise cid ↔
      w.1 < 16 ∧ w.2.1 < 16 ∧ w.2.2.1 < columnHeight noise cid w.1 w.2.1 ∧
        w.2.2.2 = columnHeight noise cid w.1 w.2.1 - w.2.2.1 := by
  obtain ⟨a, b, c, d⟩ := w
  simp only [chunkWrites, List.mem_flatMap, List.mem_map, List.mem_range,
    Prod.mk.injEq]
  constructor
  · rintro ⟨p, hp, z, hz, h1, h2, h3, h4⟩
    obtain ⟨hp1, hp2⟩ := mem_chunkColumns.mp hp
    subst h1; subst h2; subst h3; subst h4
    exact ⟨hp1, hp2, hz, rfl⟩
  · rintro ⟨ha, hb, hc, hd⟩
    exact ⟨(a, b), mem_chunkColumns.mpr ⟨ha, hb⟩, c, hc, rfl, rfl, rfl, hd.symm⟩

theorem nodup_chunkWrites_index (noise : ℚ → ℚ → ℚ) (cid : ChunkId) :
    ((chunkWrites noise cid).map
      (fun w => Chunk.get_block_index w.1 w.2.1 w.2.2.1)).Nodup := by
  rw [chunkWrites, List.map_flatMap]
  rw [List.nodup_flatMap]
  constructor
  · intro p _
    rw [List.map_map]
    refine (List.nodup_range _).map ?_
    intro z z' h
    simp only [Function.comp_apply, Chunk.get_block_index, Chunk.WIDTH] at h
    norm_num at h
    omega
  · refine nodup_chunkColumns.pairwise_of_forall_ne ?_
    intro p hp q hq hpq
    intro i hip hiq
    simp only [List.mem_map, List.mem_range] at hip hiq
    obtain ⟨w, ⟨z, hz, rfl⟩, hgw⟩ := hip
    obtain ⟨w', ⟨z', hz', rfl⟩, hgw'⟩ := hiq
    obtain ⟨hp1, hp2⟩ := mem_chunkColumns.mp hp
    obtain ⟨hq1, hq2⟩ := mem_chunkColumns.mp hq
    obtain ⟨h1, h2, _⟩ := get_block_index_inj hp1 hp2 hq1 hq2 (hgw.trans hgw'.symm)
    exact hpq (Prod.ext h1 h2)

theorem chunkNew_blocks_eq (noise : ℚ → ℚ → ℚ) (cid : ChunkId) :
    (Chunk.new noise cid).blocks =
      ((chunkWrites noise cid).map
        (fun w => (Chunk.get_block_index w.1 w.2.1 w.2.2.1,
          some (blockForDepth w.2.2.2)))).foldl
        (fun l w => l.set w.1 w.2) (List.replicate Chunk.SIZE none) := by
  rw [Chunk.new, List.foldl_map]

theorem get_block_index_lt_size {x y z : ℕ} (hx : x < 16) (hy : y < 16)
    (hz : z < 256) : Chunk.get_block_index x y z < Chunk.SIZE := by
  simp only [Chunk.get_block_index, Chunk.SIZE, Chunk.WIDTH, Chunk.HEIGHT]
  norm_num
  omega

theorem chunk_cell (noise : ℚ → ℚ → ℚ) (cid : ChunkId) {x y z : ℕ}
    (hx : x < 16) (hy : y < 16) (hz : z < 256) :
    (Chunk.new noise cid).blocks[Chunk.get_block_index x y z]? =
      some (if z < columnHeight noise cid x y then
        some (blockForDepth (columnHeight noise cid x y - z)) else none) := by
  rw [chunkNew_blocks_eq]
  by_cases hcase : z < columnHeight noise cid x y
  · rw [if_pos hcase]
    apply foldl_set_getElem?_mem
    · have : ((chunkWrites noise cid).map
          (fun w => (Chunk.get_block_index w.1 w.2.1 w.2.2.1,
            some (blockForDepth w.2.2.2)))).map Prod.fst =
          (chunkWrites noise cid).map
            (fun w => Chunk.get_block_index w.1 w.2.1 w.2.2.1) := by
        rw [List.map_map]
        rfl
      rw [this]
      exact nodup_chunkWrites_index noise cid
    · refine List.mem_map.mpr ⟨(x, y, z, columnHeight noise cid x y - z), ?_, rfl⟩
      exact mem_chunkWrites.mpr ⟨hx, hy, hcase, rfl⟩
    · rw [List.length_replicate]
      exact get_block_index_lt_size hx hy hz
  · rw [if_neg hcase]
    rw [foldl_set_getElem?_not_mem]
    · rw [List.getElem?_replicate, if_pos (get_block_index_lt_size hx hy hz)]
    · intro w hw
      rcases List.mem_map.mp hw with ⟨w', hw', rfl⟩
      obtain ⟨h1, h2, h3, _⟩ := mem_chunkWrites.mp hw'
      intro heq
      obtain ⟨e1, e2, e3⟩ := get_block_index_inj h1 h2 hx hy heq
      subst e1; subst e2; subst e3
      exact hcase h3

theorem chunk_blocks_length (noise : ℚ → ℚ → ℚ) (cid : ChunkId) :
    (Chunk.new noise cid).blocks.length = Chunk.SIZE := by
  rw [chunkNew_blocks_eq, foldl_set_length, List.length_replicate]

theorem columnHeight_bounds {noise : ℚ → ℚ → ℚ}
    (hn : ∀ a b : ℚ, -1 ≤ noise a b ∧ noise a b ≤ 1) (cid : ChunkId)
    (x y : ℕ) :
    64 ≤ columnHeight noise cid x y ∧ columnHeight noise cid x y ≤ 128 := by
  unfold columnHeight
  simp only [MIN_TERRAIN_HEIGHT, MAX_TERRAIN_AMPLITUDE, MAX_TERRAIN_HEIGHT]
  set t := noise ((cid.starting_position.x + (x : ℚ)) * NOISE_FREQUENCY)
    ((cid.starting_position.y + (y : ℚ)) * NOISE_FREQUENCY) with ht
  obtain ⟨hlo, hhi⟩ := hn ((cid.starting_position.x + (x : ℚ)) * NOISE_FREQUENCY)
    ((cid.starting_position.y + (y : ℚ)) * NOISE_FREQUENCY)
  rw [← ht] at hlo hhi
  have hq0 : (0 : ℚ) ≤ (t + 1) / 2 * ((128 - 64 : ℕ) : ℚ) := by
    have : (0 : ℚ) ≤ (t + 1) / 2 := by linarith
    positivity
  have hq64 : (t + 1) / 2 * ((128 - 64 : ℕ) : ℚ) ≤ 64 := by
    have h1 : (t + 1) / 2 ≤ 1 := by linarith
    have h2 : ((128 - 64 : ℕ) : ℚ) = 64 := by norm_num
    nlinarith [h1, h2]
  rw [rustRound, if_pos hq0]
  constructor
  · omega
  · have hfl : ⌊(t + 1) / 2 * ((128 - 64 : ℕ) : ℚ) + 1 / 2⌋ ≤ 64 := by
      have : (t + 1) / 2 * ((128 - 64 : ℕ) : ℚ) + 1 / 2 ≤ 64 + 1 / 2 := by linarith
      calc ⌊(t + 1) / 2 * ((128 - 64 : ℕ) : ℚ) + 1 / 2⌋ ≤ ⌊(64 : ℚ) + 1 / 2⌋ :=
            Int.floor_le_floor this
        _ = 64 := by norm_num
    omega

/-! ### Helper lemmas: registry and channels -/

theorem find?_map_id_preserving (f : PlayerState → PlayerState)
    (hf : ∀ p, (f p).id = p.id) (ps : List PlayerState) (pid : ℕ) :
    (ps.map f).find? (fun p => p.id = pid) =
      (ps.find? (fun p => p.id = pid)).map f := by
  induction ps with
  | nil => rfl
  | cons p ps ih =>
    by_cases h : p.id = pid
    · simp [List.find?_cons, hf, h]
    · simp only [List.map_cons]
      rw [List.find?_cons_of_neg, List.find?_cons_of_neg, ih]
      · simp [h]
      · simp [hf, h]

theorem map_id_map_id_preserving (f : PlayerState → PlayerState)
    (hf : ∀ p, (f p).id = p.id) (ps : List PlayerState) :
    (ps.map f).map PlayerState.id = ps.map PlayerState.id := by
  rw [List.map_map]
  exact List.map_congr_left fun p _ => hf p

theorem pushTo_id_preserving (pid : ℕ) (msg : ServerMessage) (p : PlayerState) :
    ((fun p => if p.id = pid then { p with queue := p.queue ++ [msg] } else p) p).id
      = p.id := by
  by_cases h : p.id = pid <;> simp [h]

theorem find?_pushTo (ps : List PlayerState) (pid pid' : ℕ) (msg : ServerMessage) :
    (pushTo ps pid msg).find? (fun p => p.id = pid') =
      (ps.find? (fun p => p.id = pid')).map
        (fun p => if p.id = pid then { p with queue := p.queue ++ [msg] } else p) :=
  find?_map_id_preserving _ (pushTo_id_preserving pid msg) ps pid'

theorem find?_pushAll (ps : List PlayerState) (pid' : ℕ) (msg : ServerMessage) :
    (pushAll ps msg).find? (fun p => p.id = pid') =
      (ps.find? (fun p => p.id = pid')).map
        (fun p => { p with queue := p.queue ++ [msg] }) := by
  rw [pushAll]
  exact find?_map_id_preserving (fun p => { p with queue := p.queue ++ [msg] })
    (fun _ => rfl) ps pid'

theorem find?_id_eq {ps : List PlayerState} {pid : ℕ} {p : PlayerState}
    (h : ps.find? (fun p => p.id = pid) = some p) : p.id = pid := by
  have := List.find?_some h
  simpa using this

theorem find?_eq_none_of_not_registered {ps : List PlayerState} {pid : ℕ}
    (h : pid ∉ ps.map PlayerState.id) :
    ps.find? (fun p => p.id = pid) = none := by
  rw [List.find?_eq_none]
  intro p hp
  simp only [decide_eq_true_eq]
  intro he
  exact h (List.mem_map.mpr ⟨p, hp, he⟩)

theorem queueOf_pushTo_self {st : State} {pid : ℕ} {q : List ServerMessage}
    (hq : st.queueOf pid = some q) (msg : ServerMessage) (h' : List PlayerState)
    (hh : h' = pushTo st.players pid msg) :
    (h'.find? (fun p => p.id = pid)).map PlayerState.queue = some (q ++ [msg]) := by
  subst hh
  rw [find?_pushTo]
  rw [State.queueOf] at hq
  rcases Option.map_eq_some'.mp hq with ⟨p, hp, rfl⟩
  rw [hp]
  simp [find?_id_eq hp]

theorem queueOf_pushTo_other {st : State} {pid pid' : ℕ} {q : List ServerMessage}
    (hq : st.queueOf pid' = some q) (hne : pid' ≠ pid) (msg : ServerMessage) :
    ((pushTo st.players pid msg).find? (fun p => p.id = pid')).map PlayerState.queue
      = some q := by
  rw [find?_pushTo]
  rw [State.queueOf] at hq
  rcases Option.map_eq_some'.mp hq with ⟨p, hp, rfl⟩
  rw [hp]
  simp [find?_id_eq hp, hne]

theorem foldl_pushTo_find? (msgs : List ServerMessage) (ps : List PlayerState)
    (pid pid' : ℕ) :
    ((msgs.foldl (fun a m => pushTo a pid m) ps).find? (fun p => p.id = pid')) =
      (ps.find? (fun p => p.id = pid')).map
        (fun p => if p.id = pid then { p with queue := p.queue ++ msgs } else p) := by
  induction msgs generalizing ps with
  | nil =>
    simp only [List.foldl_nil]
    cases h : ps.find? (fun p => p.id = pid') with
    | none => rfl
    | some p =>
      obtain ⟨i, pos, q⟩ := p
      by_cases hc : i = pid <;> simp [hc]
  | cons m ms ih =>
    rw [List.foldl_cons, ih, find?_pushTo, Option.map_map]
    cases h : ps.find? (fun p => p.id = pid') with
    | none => rfl
    | some p =>
      by_cases hc : p.id = pid <;> simp [Function.comp, hc]

theorem ids_foldl_pushTo (msgs : List ServerMessage) (ps : List PlayerState)
    (pid : ℕ) :
    (msgs.foldl (fun a m => pushTo a pid m) ps).map PlayerState.id =
      ps.map PlayerState.id := by
  induction msgs generalizing ps with
  | nil => rfl
  | cons m ms ih =>
    rw [List.foldl_cons, ih, pushTo,
      map_id_map_id_preserving _ (pushTo_id_preserving pid m)]

/-! ### Helper lemmas: chat history -/

theorem historyAppend_length_le {h : List ChatMessage} (hh : h.length ≤ HISTORY_SIZE)
    (m : ChatMessage) : (historyAppend h m).length ≤ HISTORY_SIZE := by
  rw [historyAppend]
  simp only [HISTORY_SIZE] at hh ⊢
  by_cases hc : h.length = 50
  · rw [if_pos hc]
    simp only [List.length_append, List.length_drop, List.length_cons,
      List.length_nil]
    omega
  · rw [if_neg hc]
    simp only [List.length_append, List.length_cons, List.length_nil]
    omega

theorem foldl_historyAppend_drop (msgs : List ChatMessage) :
    ∀ h : List ChatMessage, h.length ≤ HISTORY_SIZE →
      msgs.foldl historyAppend h =
        (h ++ msgs).drop (h.length + msgs.length - HISTORY_SIZE) := by
  induction msgs with
  | nil =>
    intro h hh
    simp only [List.foldl_nil, List.append_nil, List.length_nil]
    rw [Nat.add_zero, Nat.sub_eq_zero_of_le hh, List.drop_zero]
  | cons m rest ih =>
    intro h hh
    rw [List.foldl_cons]
    by_cases hc : h.length = HISTORY_SIZE
    · have happ : historyAppend h m = h.drop 1 ++ [m] := by
        rw [historyAppend, if_pos hc]
      have hlen : (historyAppend h m).length = HISTORY_SIZE := by
        rw [happ]
        simp only [List.length_append, List.length_drop, List.length_cons,
          List.length_nil, hc]
        simp only [HISTORY_SIZE]
      rw [ih (historyAppend h m) (le_of_eq hlen), hlen, happ]
      have hpos : (1 : ℕ) ≤ h.length := by
        simp only [HISTORY_SIZE] at hc
        omega
      have h1 : (h.drop 1 ++ [m]) ++ rest = (h ++ m :: rest).drop 1 := by
        rw [List.drop_append_of_le_length hpos, List.append_assoc]
        rfl
      rw [h1, List.drop_drop]
      congr 1
      simp only [List.length_cons, List.length_append, List.length_drop,
        List.length_nil, HISTORY_SIZE]
      simp only [HISTORY_SIZE] at hc
      omega
    · have happ : historyAppend h m = h ++ [m] := by
        rw [historyAppend, if_neg hc]
      have hlt : h.length < HISTORY_SIZE := lt_of_le_of_ne hh hc
      have hlen : (historyAppend h m).length = h.length + 1 := by
        rw [happ]; simp
      have hle : (historyAppend h m).length ≤ HISTORY_SIZE := by
        rw [hlen]; omega
      rw [ih (historyAppend h m) hle, hlen, happ, List.append_assoc]
      congr 1
      simp only [List.length_cons, List.singleton_append]
      omega

theorem run_chats_history (st : State) (ops : List (ℕ × String × ℕ)) :
    (st.run_chats ops).history =
      (ops.map chatOf).foldl historyAppend st.history := by
  induction ops generalizing st with
  | nil => rfl
  | cons o os ih =>
    have h1 : st.run_chats (o :: os) =
        (st.send_chat_message o.1 o.2.1 o.2.2).run_chats os := rfl
    rw [h1, ih, List.map_cons, List.foldl_cons]
    rfl

theorem run_chats_queueOf (st : State) (ops : List (ℕ × String × ℕ)) (pid : ℕ)
    (q : List ServerMessage) (hq : st.queueOf pid = some q) :
    (st.run_chats ops).queueOf pid =
      some (q ++ ops.map fun o => ServerMessage.ChatMessage (chatOf o)) := by
  induction ops generalizing st q with
  | nil =>
    simpa [State.run_chats] using hq
  | cons o os ih =>
    have hstep : (st.send_chat_message o.1 o.2.1 o.2.2).queueOf pid =
        some (q ++ [ServerMessage.ChatMessage (chatOf o)]) := by
      rw [State.send_chat_message, State.queueOf]
      simp only
      rw [find?_pushAll]
      rw [State.queueOf] at hq
      rcases Option.map_eq_some'.mp hq with ⟨p, hp, rfl⟩
      rw [hp]
      rfl
    have : (st.run_chats (o :: os)) =
        (st.send_chat_message o.1 o.2.1 o.2.2).run_chats os := rfl
    rw [this, ih _ _ hstep, List.append_assoc]
    rfl

theorem update_unregistered_players_eq (st : State) (pid : ℕ) (pos : Position)
    (h : pid ∉ st.ids) :
    (st.update_player_position pid pos).players =
      st.players.map fun p =>
        { p with queue := p.queue ++ [ServerMessage.PlayerMoved pid pos] } := by
  simp only [State.ids] at h
  rw [State.update_player_position]
  simp only [pushAll, List.map_map]
  apply List.map_congr_left
  intro p hp
  have hne : ¬ p.id = pid := fun he => h (List.mem_map.mpr ⟨p, hp, he⟩)
  simp [Function.comp, hne]

/-! ### Claim theorems -/

/-- C4: starting from an empty history, after any sequence of chat appends the
Chat History length is at most 50 (`HISTORY_SIZE`); after appending 51
messages the result is exactly the 50 most recent messages in insertion order
(the first-appended message was evicted and, when the messages are distinct,
is absent). -/
theorem chat_history_capacity (st : State) (ops : List (ℕ × String × ℕ))
    (hempty : st.history = []) :
    (st.run_chats ops).history.length ≤ HISTORY_SIZE ∧
    (ops.length = HISTORY_SIZE + 1 →
      (st.run_chats ops).history = (ops.map chatOf).drop 1 ∧
      ((ops.map chatOf).Nodup → ∀ m, (ops.map chatOf).head? = some m →
        m ∉ (st.run_chats ops).history)) := by
  have hist : (st.run_chats ops).history =
      (ops.map chatOf).drop ((ops.map chatOf).length - HISTORY_SIZE) := by
    rw [run_chats_history, hempty]
    have h0 := foldl_historyAppend_drop (ops.map chatOf) [] (by simp)
    simpa using h0
  refine ⟨?_, ?_⟩
  · rw [hist, List.length_drop]
    simp only [HISTORY_SIZE]
    omega
  · intro hlen
    have hlen' : (ops.map chatOf).length = HISTORY_SIZE + 1 := by
      simp [hlen]
    have hdrop : (ops.map chatOf).length - HISTORY_SIZE = 1 := by omega
    refine ⟨by rw [hist, hdrop], ?_⟩
    intro hnd m hm
    rw [hist, hdrop]
    cases hmsgs : ops.map chatOf with
    | nil => rw [hmsgs] at hm; cases hm
    | cons m0 tl =>
      rw [hmsgs] at hm hnd
      simp only [List.head?_cons, Option.some.injEq] at hm
      subst hm
      rw [List.drop_one, List.tail_cons]
      exact (List.nodup_cons.mp hnd).1

theorem chat_history_capacity_witness :
    (emptyState.run_chats sampleOps).history.length ≤ HISTORY_SIZE ∧
    (emptyState.run_chats sampleOps).history = (sampleOps.map chatOf).drop 1 := by
  have h := chat_history_capacity emptyState sampleOps rfl
  refine ⟨h.1, (h.2 ?_).1⟩
  simp [sampleOps]

/-- C10: when `update_player_position` is called for a PlayerId that is not in
the registry, the registry keeps exactly its entries (same ids, same
positions — only the ghost delivery queues change) and every currently
registered player is still sent the `PlayerMoved(player_id, position)`
event. -/
theorem update_position_unregistered_frame (st : State) (pid : ℕ)
    (pos : Position) (h : pid ∉ st.ids) :
    (st.update_player_position pid pos).players =
      st.players.map fun p =>
        { p with queue := p.queue ++ [ServerMessage.PlayerMoved pid pos] } :=
  update_unregistered_players_eq st pid pos h

theorem update_position_unregistered_frame_witness :
    (twoPlayerState.update_player_position 5 ⟨1, 2, 0⟩).players =
      twoPlayerState.players.map fun p =>
        { p with queue := p.queue ++ [ServerMessage.PlayerMoved 5 ⟨1, 2, 0⟩] } :=
  update_position_unregistered_frame twoPlayerState 5 ⟨1, 2, 0⟩ (by decide)

/-- C3 counterexample: on the empty registry, the operations referencing the
unregistered PlayerId 5 do not report an explicit error result —
`update_player_position` silently returns the state unchanged (its Rust
return type `()` carries no error), and `send_player_list` panics
(`players[&player_id]` on a missing key), modelled by `none`. This refutes
the claim that such operations report an explicit error and neither no-op
nor panic. -/
theorem unregistered_ops_counterexample :
    State.update_player_position emptyState 5 ⟨0, 0, 0⟩ = emptyState ∧
    State.send_player_list emptyState 5 = none := by
  exact ⟨rfl, rfl⟩

/-- C3 (amended): for a PlayerId absent from the registry,
`update_player_position` reports no error — it leaves every registry entry
unchanged and still broadcasts `PlayerMoved` to all registered players —
and `send_player_list` panics (HashMap indexing on the missing key) instead
of returning an error result. -/
theorem unregistered_ops_behavior (st : State) (pid : ℕ) (pos : Position)
    (h : pid ∉ st.ids) :
    (st.update_player_position pid pos).players =
      (st.players.map fun p =>
        { p with queue := p.queue ++ [ServerMessage.PlayerMoved pid pos] }) ∧
    st.send_player_list pid = none := by
  refine ⟨update_unregistered_players_eq st pid pos h, ?_⟩
  rw [State.send_player_list]
  simp only [State.ids] at h
  rw [find?_eq_none_of_not_registered h]

theorem unregistered_ops_behavior_witness :
    (twoPlayerState.update_player_position 8 ⟨0, 1, 0⟩).players =
      (twoPlayerState.players.map fun p =>
        { p with queue := p.queue ++ [ServerMessage.PlayerMoved 8 ⟨0, 1, 0⟩] }) ∧
    twoPlayerState.send_player_list 8 = none :=
  unregistered_ops_behavior twoPlayerState 8 ⟨0, 1, 0⟩ (by decide)

/-- C7 counterexample: sending to a closed outbound delivery handle is not a
no-op that completes without aborting — `tx.send(..).await` fails, the error
is logged and then `.unwrap()` panics, aborting the sending operation
(modelled by `none`). -/
theorem closed_channel_send_counterexample :
    Channel.send_server_message { closed := true, queue := [] }
      (ServerMessage.PlayerConnected 1) = none := rfl

/-- C7 (amended): sending a ServerMessage to a closed outbound delivery handle
always panics the sending operation (the send error is unwrapped), rather
than completing as a no-op. -/
theorem closed_channel_send_panics (ch : Channel) (msg : ServerMessage)
    (h : ch.closed = true) : ch.send_server_message msg = none := by
  obtain ⟨c, q⟩ := ch
  simp only at h
  subst h
  rfl

theorem closed_channel_send_panics_witness :
    Channel.send_server_message
      { closed := true, queue := [ServerMessage.PlayerConnected 2] }
      (ServerMessage.PlayerDisconnected 3) = none :=
  closed_channel_send_panics _ _ rfl

/-- C6: every `chat(id, text)` operation appends the ChatMessage built from
the sender id, the text and the current timestamp to the Chat History
(evicting from the front only when full), and delivers exactly that message
to every currently registered player including the sender; over any sequence
of chat operations each registered player's channel receives the messages in
the same relative order in which the History stored them. -/
theorem chat_broadcast_order (st : State) (ops : List (ℕ × String × ℕ))
    (hh : st.history.length ≤ HISTORY_SIZE) :
    (st.run_chats ops).history =
      (st.history ++ ops.map chatOf).drop
        (st.history.length + ops.length - HISTORY_SIZE) ∧
    (∀ pid q, st.queueOf pid = some q →
      (st.run_chats ops).queueOf pid =
        some (q ++ ops.map fun o => ServerMessage.ChatMessage (chatOf o))) := by
  refine ⟨?_, ?_⟩
  · rw [run_chats_history, foldl_historyAppend_drop _ _ hh]
    congr 2
    simp
  · intro pid q hq
    exact run_chats_queueOf st ops pid q hq

theorem chat_broadcast_order_witness :
    (twoPlayerState.run_chats [(7, "hi", 4)]).history =
      (twoPlayerState.history ++ [(7, "hi", 4)].map chatOf).drop
        (twoPlayerState.history.length + [(7, "hi", 4)].length - HISTORY_SIZE) ∧
    (∀ pid q, twoPlayerState.queueOf pid = some q →
      (twoPlayerState.run_chats [(7, "hi", 4)]).queueOf pid =
        some (q ++ [(7, "hi", 4)].map fun o =>
          ServerMessage.ChatMessage (chatOf o))) :=
  chat_broadcast_order twoPlayerState [(7, "hi", 4)] (by decide)

/-- C5: `player_joined(id)` first registers the player, then broadcasts
`PlayerConnected(id)` to every registered player (including the joiner), then
unicasts the full chat-history snapshot, oldest first, to the joining player
only: the joiner's channel holds `PlayerConnected id` followed by exactly the
stored history, while every other registered player's channel receives only
the `PlayerConnected id` event. -/
theorem player_joined_order (st : State) (pid : ℕ) (h : pid ∉ st.ids) :
    ∃ st', st.player_joined pid = some st' ∧
      st'.queueOf pid = some (ServerMessage.PlayerConnected pid ::
        st.history.map ServerMessage.ChatMessage) ∧
      st'.ids = st.ids ++ [pid] ∧
      st'.history = st.history ∧
      (∀ pid' q, pid' ≠ pid → st.queueOf pid' = some q →
        st'.queueOf pid' = some (q ++ [ServerMessage.PlayerConnected pid])) := by
  simp only [State.ids] at h
  have hany : (st.players.any fun p => p.id = pid) = false := by
    rw [List.any_eq_false]
    intro p hp
    simp only [decide_eq_true_eq]
    exact fun he => h (List.mem_map.mpr ⟨p, hp, he⟩)
  have hfind1 : (st.players ++ [({ id := pid, position := default, queue := [] } :
      PlayerState)]).find? (fun p => p.id = pid) =
      some { id := pid, position := default, queue := [] } := by
    rw [List.find?_append, find?_eq_none_of_not_registered h]
    simp
  have hfind2 : (pushAll
      (st.players ++
        [({ id := pid, position := default, queue := [] } : PlayerState)])
      (ServerMessage.PlayerConnected pid)).find? (fun p => p.id = pid) =
      some { id := pid, position := default
             queue := [ServerMessage.PlayerConnected pid] } := by
    rw [find?_pushAll, hfind1]
    rfl
  refine ⟨{ st with players :=
                      st.history.foldl
                        (fun ps m =>
                          pushTo ps pid (ServerMessage.ChatMessage m))
                        (pushAll
                          (st.players ++
                            [({ id := pid, position := default,
                                queue := [] } : PlayerState)])
                          (ServerMessage.PlayerConnected pid)) },
    ?_, ?_, ?_, rfl, ?_⟩
  · simp only [State.player_joined, hany, Bool.false_eq_true, if_false,
      State.send_player_connected, State.send_history]
    simp only [hfind2]
  · rw [State.queueOf]
    simp only
    rw [← List.foldl_map ServerMessage.ChatMessage
      (fun ps m => pushTo ps pid m) st.history]
    rw [foldl_pushTo_find?, hfind2]
    simp
  · simp only [State.ids]
    rw [← List.foldl_map ServerMessage.ChatMessage
      (fun ps m => pushTo ps pid m) st.history]
    rw [ids_foldl_pushTo, pushAll,
      map_id_map_id_preserving
        (fun p => { p with
                      queue := p.queue ++ [ServerMessage.PlayerConnected pid] })
        (fun _ => rfl),
      List.map_append]
    rfl
  · intro pid' q hne hq
    rw [State.queueOf] at hq ⊢
    rcases Option.map_eq_some'.mp hq with ⟨p, hp, rfl⟩
    simp only
    rw [← List.foldl_map ServerMessage.ChatMessage
      (fun ps m => pushTo ps pid m) st.history]
    rw [foldl_pushTo_find?, find?_pushAll, List.find?_append, hp]
    have hpid : p.id = pid' := find?_id_eq hp
    simp [hpid, hne]

theorem player_joined_order_witness :
    ∃ st', twoPlayerState.player_joined 5 = some st' ∧
      st'.queueOf 5 = some (ServerMessage.PlayerConnected 5 ::
        twoPlayerState.history.map ServerMessage.ChatMessage) ∧
      st'.ids = twoPlayerState.ids ++ [5] ∧
      st'.history = twoPlayerState.history ∧
      (∀ pid' q, pid' ≠ 5 → twoPlayerState.queueOf pid' = some q →
        st'.queueOf pid' = some (q ++ [ServerMessage.PlayerConnected 5])) :=
  player_joined_order twoPlayerState 5 (by decide)

/-- C1: contrary to the claim that the Generator executes exactly once per
ChunkId, `Entry::or_insert(Chunk::new(..))` evaluates its argument eagerly on
every `fetch_chunk`, so after two fetches of the same ChunkId the generator
has executed twice (`gens = 2`); the cache still holds the single
first-generated chunk and both callers were delivered that bit-identical
chunk. -/
theorem send_chunk_regenerates (noise : ℚ → ℚ → ℚ) (st : State) (cid : ChunkId)
    (p1 p2 : ℕ) (q1 q2 : List ServerMessage) (hne : p1 ≠ p2)
    (h1 : st.queueOf p1 = some q1) (h2 : st.queueOf p2 = some q2)
    (hchunks : st.chunks = []) (hgens : st.gens = 0) :
    ∃ st1 st2, State.send_chunk noise st p1 cid = some st1 ∧
      State.send_chunk noise st1 p2 cid = some st2 ∧
      st2.gens = 2 ∧
      st2.chunks = [(cid, Chunk.new noise cid)] ∧
      st2.queueOf p1 = some (q1 ++ [ServerMessage.Chunk (Chunk.new noise cid)]) ∧
      st2.queueOf p2 = some (q2 ++ [ServerMessage.Chunk (Chunk.new noise cid)]) := by
  obtain ⟨pp1, hp1, hq1⟩ := Option.map_eq_some'.mp h1
  obtain ⟨pp2, hp2, hq2⟩ := Option.map_eq_some'.mp h2
  have hlook0 : st.chunks.find? (fun e => e.1 = cid) = none := by
    rw [hchunks]; rfl
  refine ⟨{ st with gens := st.gens + 1,
                    chunks := st.chunks ++ [(cid, Chunk.new noise cid)],
                    players :=
                      pushTo st.players p1
                        (ServerMessage.Chunk (Chunk.new noise cid)) },
    ?_⟩
  have hfind1 : ((st.chunks ++ [(cid, Chunk.new noise cid)]).find?
      (fun e => e.1 = cid)) = some (cid, Chunk.new noise cid) := by
    rw [hchunks]
    simp
  have hp2' : (pushTo st.players p1
      (ServerMessage.Chunk (Chunk.new noise cid))).find?
        (fun p => p.id = p2) = some pp2 := by
    rw [find?_pushTo, hp2]
    have : pp2.id ≠ p1 := by
      rw [find?_id_eq hp2]
      exact fun he => hne he.symm
    simp [this]
  refine ⟨{ st with gens := st.gens + 1 + 1,
                    chunks := st.chunks ++ [(cid, Chunk.new noise cid)],
                    players :=
                      pushTo
                        (pushTo st.players p1
                          (ServerMessage.Chunk (Chunk.new noise cid)))
                        p2 (ServerMessage.Chunk (Chunk.new noise cid)) },
    ?_, ?_, ?_, ?_, ?_, ?_⟩
  · rw [State.send_chunk]
    simp only [hlook0, hp1]
  · rw [State.send_chunk]
    simp only [hfind1, hp2']
  · simp [hgens]
  · rw [hchunks]; rfl
  · rw [State.queueOf]
    simp only
    rw [find?_pushTo]
    have hh : ((pushTo st.players p1
        (ServerMessage.Chunk (Chunk.new noise cid))).find?
          (fun p => p.id = p1)).map PlayerState.queue =
        some (q1 ++ [ServerMessage.Chunk (Chunk.new noise cid)]) :=
      queueOf_pushTo_self h1 _ _ rfl
    obtain ⟨pp1', hpp1', hqq1⟩ := Option.map_eq_some'.mp hh
    rw [hpp1']
    have : pp1'.id ≠ p2 := by
      rw [find?_id_eq hpp1']
      exact hne
    simp [this, hqq1]
  · rw [State.queueOf]
    simp only
    rw [find?_pushTo, hp2']
    have : pp2.id = p2 := find?_id_eq hp2
    simp [this, hq2]

theorem send_chunk_regenerates_witness :
    ∃ st1 st2,
      State.send_chunk zeroNoise twoPlayerState 7 ⟨0, 0⟩ = some st1 ∧
      State.send_chunk zeroNoise st1 9 ⟨0, 0⟩ = some st2 ∧
      st2.gens = 2 ∧
      st2.chunks = [(⟨0, 0⟩, Chunk.new zeroNoise ⟨0, 0⟩)] ∧
      st2.queueOf 7 =
        some ([] ++ [ServerMessage.Chunk (Chunk.new zeroNoise ⟨0, 0⟩)]) ∧
      st2.queueOf 9 =
        some ([] ++ [ServerMessage.Chunk (Chunk.new zeroNoise ⟨0, 0⟩)]) :=
  send_chunk_regenerates zeroNoise twoPlayerState ⟨0, 0⟩ 7 9 [] []
    (by decide) rfl rfl rfl rfl

theorem blockForDepth_ne_three (d : ℕ) (hd : d ≠ 0) : blockForDepth d ≠ ⟨3⟩ := by
  match d with
  | 0 => exact absurd rfl hd
  | 1 => decide
  | 2 => decide
  | 3 => decide
  | (d + 4) =>
    have h : blockForDepth (d + 4) = ⟨1⟩ := rfl
    rw [h]
    decide

/-- C2: the code never places the surface block. For every filled cell the
depth `height - z` is at least 1, so the `0 => Block(3)` match arm is
unreachable: the topmost filled cell of every column holds the subsurface
block id 2 (not the surface id 3 the claim and the dead arm intend), no cell
of the chunk ever holds id 3, and cells at or above the column height are
empty. -/
theorem chunk_top_not_surface (noise : ℚ → ℚ → ℚ)
    (hn : ∀ a b : ℚ, -1 ≤ noise a b ∧ noise a b ≤ 1) (cid : ChunkId)
    (x y : ℕ) (hx : x < 16) (hy : y < 16) :
    (Chunk.new noise cid).blocks[Chunk.get_block_index x y
        (columnHeight noise cid x y - 1)]? = some (some (Block.mk 2)) ∧
    (∀ (i : ℕ) (b : Block),
      (Chunk.new noise cid).blocks[i]? = some (some b) → b ≠ Block.mk 3) ∧
    (∀ z, columnHeight noise cid x y ≤ z → z < 256 →
      (Chunk.new noise cid).blocks[Chunk.get_block_index x y z]? = some none) := by
  obtain ⟨hlo, hhi⟩ := columnHeight_bounds hn cid x y
  refine ⟨?_, ?_, ?_⟩
  · rw [chunk_cell noise cid hx hy (by omega : columnHeight noise cid x y - 1 < 256)]
    rw [if_pos (by omega)]
    have hdep : columnHeight noise cid x y -
        (columnHeight noise cid x y - 1) = 1 := by omega
    rw [hdep]
    rfl
  · intro i b hib
    by_cases hi : i < 65536
    · have hx' : i % 16 < 16 := Nat.mod_lt _ (by norm_num)
      have hy' : i / 16 % 16 < 16 := Nat.mod_lt _ (by norm_num)
      have hz' : i / 256 < 256 := by omega
      have hidx : Chunk.get_block_index (i % 16) (i / 16 % 16) (i / 256) = i := by
        simp only [Chunk.get_block_index, Chunk.WIDTH]
        norm_num
        omega
      rw [← hidx, chunk_cell noise cid hx' hy' hz'] at hib
      by_cases hcase : i / 256 < columnHeight noise cid (i % 16) (i / 16 % 16)
      · rw [if_pos hcase] at hib
        have hb : b = blockForDepth (columnHeight noise cid (i % 16) (i / 16 % 16)
            - i / 256) := by
          have := Option.some.inj hib
          exact (Option.some.inj this).symm
        rw [hb]
        exact blockForDepth_ne_three _ (by omega)
      · rw [if_neg hcase] at hib
        have := Option.some.inj hib
        cases this
    · have hlen : (Chunk.new noise cid).blocks.length ≤ i := by
        rw [chunk_blocks_length]
        have : Chunk.SIZE = 65536 := by norm_num [Chunk.SIZE, Chunk.WIDTH, Chunk.HEIGHT]
        omega
      rw [List.getElem?_eq_none hlen] at hib
      cases hib
  · intro z hz1 hz2
    rw [chunk_cell noise cid hx hy hz2, if_neg (by omega)]

/-- C9: every generated chunk holds exactly 65536 = 16 * 16 * 256 cells; the
index formula is `z * 16² + y * 16 + x`; every in-range `(x, y, z)` indexes
below 65536; with the noise output in [-1, 1] every column height lies in
[64, 128]; and consequently every indexed write performed by the generation
loop stays below 65536. -/
theorem chunk_size_and_bounds (noise : ℚ → ℚ → ℚ)
    (hn : ∀ a b : ℚ, -1 ≤ noise a b ∧ noise a b ≤ 1) (cid : ChunkId) :
    (Chunk.new noise cid).blocks.length = 65536 ∧
    (65536 = 16 * 16 * 256) ∧
    (∀ x y z : ℕ, Chunk.get_block_index x y z = z * 16 ^ 2 + y * 16 + x) ∧
    (∀ x y z : ℕ, x < 16 → y < 16 → z < 256 →
      Chunk.get_block_index x y z < 65536) ∧
    (∀ x y : ℕ, 64 ≤ columnHeight noise cid x y ∧
      columnHeight noise cid x y ≤ 128) ∧
    (∀ w ∈ chunkWrites noise cid,
      Chunk.get_block_index w.1 w.2.1 w.2.2.1 < 65536) := by
  have hsize : Chunk.SIZE = 65536 := by
    norm_num [Chunk.SIZE, Chunk.WIDTH, Chunk.HEIGHT]
  refine ⟨?_, by norm_num, ?_, ?_, ?_, ?_⟩
  · rw [chunk_blocks_length, hsize]
  · intro x y z
    simp [Chunk.get_block_index, Chunk.WIDTH]
  · intro x y z hx hy hz
    have := get_block_index_lt_size hx hy hz
    omega
  · intro x y
    exact columnHeight_bounds hn cid x y
  · intro w hw
    obtain ⟨h1, h2, h3, _⟩ := mem_chunkWrites.mp hw
    obtain ⟨_, hhi⟩ := columnHeight_bounds hn cid w.1 w.2.1
    have hz : w.2.2.1 < 256 := by omega
    have := get_block_index_lt_size h1 h2 hz
    omega

theorem chunk_top_not_surface_witness :
    (Chunk.new zeroNoise ⟨0, 0⟩).blocks[Chunk.get_block_index 0 0
        (columnHeight zeroNoise ⟨0, 0⟩ 0 0 - 1)]? = some (some (Block.mk 2)) ∧
    (∀ (i : ℕ) (b : Block),
      (Chunk.new zeroNoise ⟨0, 0⟩).blocks[i]? = some (some b) →
        b ≠ Block.mk 3) ∧
    (∀ z, columnHeight zeroNoise ⟨0, 0⟩ 0 0 ≤ z → z < 256 →
      (Chunk.new zeroNoise ⟨0, 0⟩).blocks[Chunk.get_block_index 0 0 z]? =
        some none) :=
  chunk_top_not_surface zeroNoise
    (fun a b => by constructor <;> norm_num [zeroNoise]) ⟨0, 0⟩ 0 0
    (by norm_num) (by norm_num)

theorem chunk_size_and_bounds_witness :
    (Chunk.new zeroNoise ⟨0, 0⟩).blocks.length = 65536 ∧
    (65536 = 16 * 16 * 256) ∧
    (∀ x y z : ℕ, Chunk.get_block_index x y z = z * 16 ^ 2 + y * 16 + x) ∧
    (∀ x y z : ℕ, x < 16 → y < 16 → z < 256 →
      Chunk.get_block_index x y z < 65536) ∧
    (∀ x y : ℕ, 64 ≤ columnHeight zeroNoise ⟨0, 0⟩ x y ∧
      columnHeight zeroNoise ⟨0, 0⟩ x y ≤ 128) ∧
    (∀ w ∈ chunkWrites zeroNoise ⟨0, 0⟩,
      Chunk.get_block_index w.1 w.2.1 w.2.2.1 < 65536) :=
  chunk_size_and_bounds zeroNoise
    (fun a b => by constructor <;> norm_num [zeroNoise]) ⟨0, 0⟩

/-! ### Helper lemmas: wire round trips -/

theorem decodeVarint_encodeVarint (n : ℕ) (r : List ℕ) :
    Wire.decodeVarint (Wire.encodeVarint n ++ r) = some (n, r) := by
  rw [Wire.encodeVarint]
  by_cases h1 : n < 251
  · rw [if_pos h1]
    simp only [List.cons_append, List.nil_append, Wire.decodeVarint, if_pos h1]
  · rw [if_neg h1]
    by_cases h2 : n < 2 ^ 16
    · rw [if_pos h2]
      simp only [List.cons_append, List.nil_append, Wire.decodeVarint]
      norm_num
      omega
    · rw [if_neg h2]
      by_cases h3 : n < 2 ^ 32
      · rw [if_pos h3]
        simp only [List.cons_append, List.nil_append, Wire.decodeVarint]
        norm_num
        omega
      · rw [if_neg h3]
        simp only [List.cons_append, List.nil_append, Wire.decodeVarint]
        norm_num
        omega

theorem unzigzag_zigzag (v : ℤ) : Wire.unzigzag (Wire.zigzag v) = v := by
  by_cases hv : 0 ≤ v
  · rw [Wire.zigzag, if_pos hv, Wire.unzigzag]
    split_ifs <;> omega
  · rw [Wire.zigzag, if_neg hv, Wire.unzigzag]
    split_ifs <;> omega

theorem decodeI16_encodeI16 (v : ℤ) (r : List ℕ) :
    Wire.decodeI16 (Wire.encodeI16 v ++ r) = some (v, r) := by
  rw [Wire.encodeI16, Wire.decodeI16, decodeVarint_encodeVarint]
  simp [unzigzag_zigzag]

theorem decodeF32_encodeF32 (n : ℕ) (r : List ℕ) :
    Wire.decodeF32 (Wire.encodeF32 n ++ r) = some (n, r) := by
  rw [Wire.encodeF32]
  simp only [List.cons_append, List.nil_append, Wire.decodeF32]
  norm_num
  omega

theorem decodeU8_encodeU8 (n : ℕ) (r : List ℕ) :
    Wire.decodeU8 (Wire.encodeU8 n ++ r) = some (n, r) := rfl

theorem decodeStr_encodeStr (s : List ℕ) (r : List ℕ) :
    Wire.decodeStr (Wire.encodeStr s ++ r) = some (s, r) := by
  rw [Wire.encodeStr, List.append_assoc, Wire.decodeStr,
    decodeVarint_encodeVarint]
  simp

theorem decodeCount_encode {α : Type} (dec : List ℕ → Option (α × List ℕ))
    (enc : α → List ℕ) (l : List α) (r : List ℕ)
    (helem : ∀ a ∈ l, ∀ r', dec (enc a ++ r') = some (a, r')) :
    Wire.decodeCount dec l.length ((l.map enc).flatten ++ r) = some (l, r) := by
  induction l generalizing r with
  | nil => simp [Wire.decodeCount]
  | cons a l ih =>
    simp only [List.map_cons, List.flatten_cons, List.length_cons,
      List.append_assoc, Wire.decodeCount]
    rw [helem a (List.mem_cons_self a l) ((l.map enc).flatten ++ r)]
    simp only [ih r fun a ha r' => helem a (List.mem_cons_of_mem _ ha) r']

theorem decodeList_encodeList {α : Type} (dec : List ℕ → Option (α × List ℕ))
    (enc : α → List ℕ) (l : List α) (r : List ℕ)
    (helem : ∀ a ∈ l, ∀ r', dec (enc a ++ r') = some (a, r')) :
    Wire.decodeList dec (Wire.encodeList enc l ++ r) = some (l, r) := by
  rw [Wire.encodeList, List.append_assoc, Wire.decodeList,
    decodeVarint_encodeVarint]
  exact decodeCount_encode dec enc l r helem

theorem decodeOpt_encodeOpt {α : Type} (dec : List ℕ → Option (α × List ℕ))
    (enc : α → List ℕ) (o : Option α) (r : List ℕ)
    (helem : ∀ a, o = some a → ∀ r', dec (enc a ++ r') = some (a, r')) :
    Wire.decodeOpt dec (Wire.encodeOpt enc o ++ r) = some (o, r) := by
  cases o with
  | none => rfl
  | some a =>
    simp only [Wire.encodeOpt, List.cons_append, Wire.decodeOpt]
    rw [helem a rfl r]

theorem decodePosition_encodePosition (p : Wire.Position) (r : List ℕ) :
    Wire.decodePosition (Wire.encodePosition p ++ r) = some (p, r) := by
  simp only [Wire.encodePosition, Wire.decodePosition, List.append_assoc,
    decodeF32_encodeF32]

theorem decodeChunkId_encodeChunkId (c : Wire.ChunkId) (r : List ℕ) :
    Wire.decodeChunkId (Wire.encodeChunkId c ++ r) = some (c, r) := by
  simp only [Wire.encodeChunkId, Wire.decodeChunkId, List.append_assoc,
    decodeI16_encodeI16]

theorem decodeBlock_encodeBlock (b : Wire.Block) (r : List ℕ) :
    Wire.decodeBlock (Wire.encodeBlock b ++ r) = some (b, r) := by
  simp only [Wire.encodeBlock, Wire.decodeBlock, decodeU8_encodeU8]
  rfl

theorem decodeOptBlock_encodeOptBlock (o : Option Wire.Block) (r : List ℕ) :
    Wire.decodeOpt Wire.decodeBlock (Wire.encodeOpt Wire.encodeBlock o ++ r) =
      some (o, r) :=
  decodeOpt_encodeOpt _ _ o r fun b _ r' => decodeBlock_encodeBlock b r'

theorem decodeChunk_encodeChunk (c : Wire.Chunk) (r : List ℕ) :
    Wire.decodeChunk (Wire.encodeChunk c ++ r) = some (c, r) := by
  simp only [Wire.encodeChunk, Wire.decodeChunk, List.append_assoc,
    decodeChunkId_encodeChunkId,
    decodeList_encodeList (Wire.decodeOpt Wire.decodeBlock)
      (Wire.encodeOpt Wire.encodeBlock) c.blocks r
      (fun o _ r' => decodeOptBlock_encodeOptBlock o r')]

theorem decodeChatMessage_encodeChatMessage (m : Wire.ChatMessage) (r : List ℕ) :
    Wire.decodeChatMessage (Wire.encodeChatMessage m ++ r) = some (m, r) := by
  simp only [Wire.encodeChatMessage, Wire.decodeChatMessage, List.append_assoc,
    decodeVarint_encodeVarint, decodeStr_encodeStr]

theorem decodePlayerMessage_encodePlayerMessage (m : Wire.PlayerMessage)
    (r : List ℕ) :
    Wire.decodePlayerMessage (Wire.encodePlayerMessage m ++ r) = some (m, r) := by
  cases m with
  | Message content =>
    simp [Wire.encodePlayerMessage, Wire.decodePlayerMessage,
      List.append_assoc, decodeVarint_encodeVarint, decodeStr_encodeStr]
  | UpdatePosition pos =>
    simp [Wire.encodePlayerMessage, Wire.decodePlayerMessage,
      List.append_assoc, decodeVarint_encodeVarint,
      decodePosition_encodePosition]
  | FetchChunk id =>
    simp [Wire.encodePlayerMessage, Wire.decodePlayerMessage,
      List.append_assoc, decodeVarint_encodeVarint,
      decodeChunkId_encodeChunkId]
  | FetchPlayers =>
    simp [Wire.encodePlayerMessage, Wire.decodePlayerMessage,
      decodeVarint_encodeVarint]

theorem decodeServerMessage_encodeServerMessage (m : Wire.ServerMessage)
    (r : List ℕ) :
    Wire.decodeServerMessage (Wire.encodeServerMessage m ++ r) = some (m, r) := by
  cases m with
  | ChatMessage mm =>
    simp [Wire.encodeServerMessage, Wire.decodeServerMessage,
      List.append_assoc, decodeVarint_encodeVarint,
      decodeChatMessage_encodeChatMessage]
  | Players l =>
    simp [Wire.encodeServerMessage, Wire.decodeServerMessage,
      List.append_assoc, decodeVarint_encodeVarint,
      decodeList_encodeList Wire.decodeVarint Wire.encodeVarint l r
        (fun i _ r' => decodeVarint_encodeVarint i r')]
  | PlayerConnected id =>
    simp [Wire.encodeServerMessage, Wire.decodeServerMessage,
      List.append_assoc, decodeVarint_encodeVarint]
  | PlayerDisconnected id =>
    simp [Wire.encodeServerMessage, Wire.decodeServerMessage,
      List.append_assoc, decodeVarint_encodeVarint]
  | PlayerMoved id pos =>
    simp [Wire.encodeServerMessage, Wire.decodeServerMessage,
      List.append_assoc, decodeVarint_encodeVarint,
      decodePosition_encodePosition]
  | Chunk c =>
    simp [Wire.encodeServerMessage, Wire.decodeServerMessage,
      List.append_assoc, decodeVarint_encodeVarint,
      decodeChunk_encodeChunk]

/-- C8: encoding any ServerMessage or PlayerMessage value (whose numeric
fields fit their Rust machine types) to a transport message with the bincode
standard configuration and decoding it back reproduces an equal value; this
covers every variant and in particular every representative payload (empty
content, maximum PlayerId, a Chunk with all-empty blocks, a Chunk with
full-height terrain). -/
theorem message_roundtrip :
    (∀ m : Wire.ServerMessage, Wire.wfServerMessage m →
      Wire.wsToServerMessage (Wire.serverMessageToWs m) = some m) ∧
    (∀ m : Wire.PlayerMessage, Wire.wfPlayerMessage m →
      Wire.wsToPlayerMessage (Wire.playerMessageToWs m) = some m) := by
  constructor
  · intro m _
    rw [Wire.serverMessageToWs, Wire.wsToServerMessage]
    have h := decodeServerMessage_encodeServerMessage m []
    rw [List.append_nil] at h
    rw [h]
    rfl
  · intro m _
    rw [Wire.playerMessageToWs, Wire.wsToPlayerMessage]
    have h := decodePlayerMessage_encodePlayerMessage m []
    rw [List.append_nil] at h
    rw [h]
    rfl

theorem message_roundtrip_witness :
    Wire.wfServerMessage sampleWireServerMessage ∧
    Wire.wsToServerMessage (Wire.serverMessageToWs sampleWireServerMessage) =
      some sampleWireServerMessage ∧
    Wire.wfPlayerMessage sampleWirePlayerMessage ∧
    Wire.wsToPlayerMessage (Wire.playerMessageToWs sampleWirePlayerMessage) =
      some sampleWirePlayerMessage := by
  have hwf1 : Wire.wfServerMessage sampleWireServerMessage := by
    norm_num [sampleWireServerMessage, Wire.wfServerMessage, Wire.wfPosition]
  have hwf2 : Wire.wfPlayerMessage sampleWirePlayerMessage := by
    norm_num [sampleWirePlayerMessage, Wire.wfPlayerMessage]
  exact ⟨hwf1, message_roundtrip.1 _ hwf1, hwf2, message_roundtrip.2 _ hwf2⟩
